import Mathlib

/-!
Verification development for the codeindex repository: a shallow embedding of
the SQLite storage layer (`src/storage/database.ts`), the query engine
(`src/query/query-engine.ts`), the incremental indexer
(`src/indexer/indexer.ts`), the file watcher glob matcher
(`src/watcher/file-watcher.ts`) and the Go extractor's symbol walk
(`src/extractor/go-extractor.ts`), together with theorems settling the
specified behaviour of these components.

Modelling conventions:
- SQLite rows are Lean structures, tables are lists, autoincrement ids are
  explicit counters on the store.
- Foreign keys carry `ON DELETE CASCADE` in the schema and better-sqlite3
  enables foreign-key enforcement, so the delete operations are modelled with
  their cascades.
- JavaScript numbers used for similarities/embeddings are modelled as `ℚ`;
  machine floats' rounding is outside the scope of the claims settled here.
- The summary columns (`chunk_hash`, `chunk_summary`, `summary_tokens`,
  `summarized_at`) on symbols are never read by the modelled operations and
  are omitted from the symbol record.
-/

/-- A row of the `files` table. -/
structure FileRecord where
  fileId : Nat
  path : String
  language : String
  contentHash : String
  mtime : Nat
  size : Nat
deriving Repr, DecidableEq

/-- The payload of a file upsert (`insertFile` takes a record without an id). -/
structure FileData where
  path : String
  language : String
  contentHash : String
  mtime : Nat
  size : Nat
deriving Repr, DecidableEq

/-- A row of the `symbols` table. -/
structure SymbolRecord where
  symbolId : Nat
  fileId : Nat
  language : String
  kind : String
  name : String
  qualifiedName : String
  startLine : Nat
  startCol : Nat
  endLine : Nat
  endCol : Nat
  signature : Option String
  exported : Bool
deriving Repr, DecidableEq

/-- An extracted symbol before insertion (no `symbolId`/`fileId` yet). -/
structure SymbolData where
  language : String
  kind : String
  name : String
  qualifiedName : String
  startLine : Nat
  startCol : Nat
  endLine : Nat
  endCol : Nat
  signature : Option String
  exported : Bool
deriving Repr, DecidableEq

/-- A row of the `calls` table (the `call_id` column is never read back). -/
structure CallRecord where
  callerSymbolId : Nat
  calleeSymbolId : Nat
  siteFileId : Nat
  siteStartLine : Nat
  siteStartCol : Nat
  siteEndLine : Nat
  siteEndCol : Nat
deriving Repr, DecidableEq

/-- A row of the `symbol_references` table. -/
structure ReferenceRecord where
  fromFileId : Nat
  fromStartLine : Nat
  fromStartCol : Nat
  fromEndLine : Nat
  fromEndCol : Nat
  toSymbolId : Nat
  refKind : String
deriving Repr, DecidableEq

/-- A row of the `symbol_embeddings` table; the packed little-endian f32
payload is modelled as a list of rationals. -/
structure EmbeddingRecord where
  symbolId : Nat
  model : String
  dim : Nat
  embedding : List ℚ
  chunkHash : String
deriving Repr, DecidableEq

/-- The `Location` shape returned by the store's join queries. -/
structure Location where
  fileId : Nat
  path : String
  startLine : Nat
  startCol : Nat
  endLine : Nat
  endCol : Nat
deriving Repr, DecidableEq

/-- The embedded database state: one list per table plus the autoincrement
counters (SQLite rowids start at 1). -/
structure Store where
  files : List FileRecord
  symbols : List SymbolRecord
  calls : List CallRecord
  references : List ReferenceRecord
  embeddings : List EmbeddingRecord
  nextFileId : Nat
  nextSymbolId : Nat
deriving Repr, DecidableEq

/-- `SELECT ... FROM files WHERE path = ?` (`getFileByPath`). -/
def Store.getFileByPath (st : Store) (path : String) : Option FileRecord :=
  st.files.find? (fun r => r.path == path)

/-- `insertFile`: `INSERT INTO files ... ON CONFLICT(path) DO UPDATE SET
content_hash, mtime, size ... RETURNING file_id`. -/
def Store.insertFile (st : Store) (f : FileData) : Nat × Store :=
  match st.files.find? (fun r => r.path == f.path) with
  | some existing =>
      (existing.fileId,
       { st with files := st.files.map (fun r =>
           if r.path == f.path then
             { r with contentHash := f.contentHash, mtime := f.mtime, size := f.size }
           else r) })
  | none =>
      (st.nextFileId,
       { st with
           files := st.files ++ [⟨st.nextFileId, f.path, f.language, f.contentHash, f.mtime, f.size⟩],
           nextFileId := st.nextFileId + 1 })

/-- `DELETE FROM files WHERE file_id = ?` (`deleteFile`).  Foreign keys
cascade: symbols of the file go, and with them calls (caller/callee),
references (target) and embeddings (symbol); calls anchored at the file
(`site_file_id`) and references sourced in it (`from_file_id`) also go. -/
def Store.deleteFile (st : Store) (fid : Nat) : Store :=
  let deadIds := (st.symbols.filter (fun s => s.fileId == fid)).map (·.symbolId)
  { st with
      files := st.files.filter (fun f => f.fileId != fid),
      symbols := st.symbols.filter (fun s => s.fileId != fid),
      calls := st.calls.filter (fun c =>
        c.siteFileId != fid && !(deadIds.contains c.callerSymbolId)
          && !(deadIds.contains c.calleeSymbolId)),
      references := st.references.filter (fun r =>
        r.fromFileId != fid && !(deadIds.contains r.toSymbolId)),
      embeddings := st.embeddings.filter (fun e => !(deadIds.contains e.symbolId)) }

/-- `DELETE FROM symbols WHERE file_id = ?` (`deleteSymbolsByFile`), with the
cascades triggered by deleting symbol rows. -/
def Store.deleteSymbolsByFile (st : Store) (fid : Nat) : Store :=
  let deadIds := (st.symbols.filter (fun s => s.fileId == fid)).map (·.symbolId)
  { st with
      symbols := st.symbols.filter (fun s => s.fileId != fid),
      calls := st.calls.filter (fun c =>
        !(deadIds.contains c.callerSymbolId) && !(deadIds.contains c.calleeSymbolId)),
      references := st.references.filter (fun r => !(deadIds.contains r.toSymbolId)),
      embeddings := st.embeddings.filter (fun e => !(deadIds.contains e.symbolId)) }

/-- `DELETE FROM calls WHERE site_file_id = ?` (`deleteCallsByFile`). -/
def Store.deleteCallsByFile (st : Store) (fid : Nat) : Store :=
  { st with calls := st.calls.filter (fun c => c.siteFileId != fid) }

/-- `DELETE FROM symbol_references WHERE from_file_id = ?`
(`deleteReferencesByFile`). -/
def Store.deleteReferencesByFile (st : Store) (fid : Nat) : Store :=
  { st with references := st.references.filter (fun r => r.fromFileId != fid) }

/-- `insertSymbol`: appends the row, returning the new rowid. -/
def Store.insertSymbol (st : Store) (fid : Nat) (s : SymbolData) : Nat × Store :=
  (st.nextSymbolId,
   { st with
       symbols := st.symbols ++
         [⟨st.nextSymbolId, fid, s.language, s.kind, s.name, s.qualifiedName,
           s.startLine, s.startCol, s.endLine, s.endCol, s.signature, s.exported⟩],
       nextSymbolId := st.nextSymbolId + 1 })

/-- `SELECT ... FROM symbols WHERE name = ?` with an optional
`AND language = ?` (`findSymbolsByName`). -/
def Store.findSymbolsByName (st : Store) (name : String) (language : Option String) :
    List SymbolRecord :=
  st.symbols.filter (fun s =>
    s.name == name &&
      (match language with
       | none => true
       | some l => s.language == l))

/-- `getAllSymbols`. -/
def Store.getAllSymbols (st : Store) : List SymbolRecord :=
  st.symbols

/-- `SELECT ... FROM symbols WHERE symbol_id = ?` (`getSymbolById`). -/
def Store.getSymbolById (st : Store) (symbolId : Nat) : Option SymbolRecord :=
  st.symbols.find? (fun s => s.symbolId == symbolId)

/-- `getSymbolLocation`: join of `symbols` with `files`, returning the
symbol's `file_id`, the file's `path`, and the symbol's span. -/
def Store.getSymbolLocation (st : Store) (symbolId : Nat) : Option Location :=
  match st.getSymbolById symbolId with
  | none => none
  | some s =>
      match st.files.find? (fun f => f.fileId == s.fileId) with
      | none => none
      | some f => some ⟨s.fileId, f.path, s.startLine, s.startCol, s.endLine, s.endCol⟩

/-- `insertCall`. -/
def Store.insertCall (st : Store) (c : CallRecord) : Store :=
  { st with calls := st.calls ++ [c] }

/-- `SELECT ... FROM calls WHERE caller_symbol_id = ?` (`getCallsFrom`). -/
def Store.getCallsFrom (st : Store) (callerSymbolId : Nat) : List CallRecord :=
  st.calls.filter (fun c => c.callerSymbolId == callerSymbolId)

/-- `SELECT ... FROM calls WHERE callee_symbol_id = ?` (`getCallsTo`). -/
def Store.getCallsTo (st : Store) (calleeSymbolId : Nat) : List CallRecord :=
  st.calls.filter (fun c => c.calleeSymbolId == calleeSymbolId)

/-- `insertReference`. -/
def Store.insertReference (st : Store) (r : ReferenceRecord) : Store :=
  { st with references := st.references ++ [r] }

/-- `SELECT ... FROM symbol_references WHERE to_symbol_id = ?`
(`getReferencesToSymbol`). -/
def Store.getReferencesToSymbol (st : Store) (symbolId : Nat) : List ReferenceRecord :=
  st.references.filter (fun r => r.toSymbolId == symbolId)

/-- The candidate shape returned by `getEmbeddingsByModel`. -/
structure EmbeddingCandidate where
  symbolId : Nat
  dim : Nat
  embedding : List ℚ
deriving Repr, DecidableEq

/-- `getEmbeddingsByModel`: embeddings joined with their symbol row, filtered
by model and optionally by the symbol's language and kind. -/
def Store.getEmbeddingsByModel (st : Store) (model : String)
    (language kind : Option String) : List EmbeddingCandidate :=
  st.embeddings.filterMap (fun e =>
    match st.symbols.find? (fun s => s.symbolId == e.symbolId) with
    | none => none
    | some s =>
        if e.model == model
            && (match language with
                | none => true
                | some l => s.language == l)
            && (match kind with
                | none => true
                | some k => s.kind == k)
        then some ⟨e.symbolId, e.dim, e.embedding⟩
        else none)

/-! ## Query engine (`src/query/query-engine.ts`) -/

/-- Does `hay` start with `pat`?  Helper for JavaScript `String.includes`. -/
def leadMatch : List Char → List Char → Bool
  | _, [] => true
  | [], _ :: _ => false
  | h :: hs, p :: ps => h == p && leadMatch hs ps

/-- Does `hay` contain `pat` as a contiguous substring?  Helper for
JavaScript `String.includes`. -/
def hasSub (pat : List Char) : List Char → Bool
  | [] => leadMatch [] pat
  | h :: t => leadMatch (h :: t) pat || hasSub pat t

/-- JavaScript `haystack.includes(needle)`. -/
def strContains (haystack needle : String) : Bool :=
  hasSub needle.toList haystack.toList

/-- `QueryEngine.findSymbol`: name lookup, then — only when there are
multiple hits — an `inFile` substring pass (returning its first survivor
immediately) and otherwise a `kind` pass over the full hit list; falls back
to the first hit. -/
def findSymbol (st : Store) (name : String) (language inFile kind : Option String) :
    Option SymbolRecord :=
  let symbols := st.findSymbolsByName name language
  if symbols.isEmpty then none
  else if 1 < symbols.length then
    let fileBranch : Option SymbolRecord :=
      match inFile with
      | none => none
      | some f =>
          (symbols.filter (fun s =>
            match st.getSymbolLocation s.symbolId with
            | some loc => strContains loc.path f
            | none => false)).head?
    match fileBranch with
    | some r => some r
    | none =>
        let kindBranch : Option SymbolRecord :=
          match kind with
          | none => none
          | some k => (symbols.filter (fun s => s.kind == k)).head?
        match kindBranch with
        | some r => some r
        | none => symbols.head?
  else symbols.head?

/-- `QueryEngine.getReferences`: one location per reference row targeting the
symbol; the `path` field is the literal empty string (the file-by-id lookup
is not performed; the stray `getFileByPath('')` read in the source has no
effect on the result and is not modelled). -/
def getReferences (st : Store) (symbolId : Nat) : List Location :=
  (st.getReferencesToSymbol symbolId).map (fun ref =>
    ⟨ref.fromFileId, "", ref.fromStartLine, ref.fromStartCol,
     ref.fromEndLine, ref.fromEndCol⟩)

/-- Call-chain direction. -/
inductive Direction where
  | forward
  | backward
deriving Repr, DecidableEq

/-- The options record of `buildCallChain` (`from` is a Lean keyword, hence
`fromId`); `direction` defaults to forward, `depth = 0` models the falsy
JavaScript values (`undefined` and `0`). -/
structure CallChainOptions where
  fromId : Nat
  direction : Option Direction
  depth : Nat
deriving Repr, DecidableEq

/-- A node of the call-chain tree. -/
inductive CallNode where
  | mk (symbolId : Nat) (name qualifiedName : String) (location : Location)
      (depth : Nat) (children : List CallNode)

/-- The symbol id to follow along a call edge for the given direction. -/
def nodeNext (dir : Direction) (c : CallRecord) : Nat :=
  match dir with
  | .forward => c.calleeSymbolId
  | .backward => c.callerSymbolId

/-- The edges `buildNode` loads for a symbol:
`direction === 'forward' ? getCallsFrom : getCallsTo`. -/
def dirCalls (st : Store) (dir : Direction) (symbolId : Nat) : List CallRecord :=
  match dir with
  | .forward => st.getCallsFrom symbolId
  | .backward => st.getCallsTo symbolId

/-- The `for (const call of calls)` loop of `buildNode`: runs `step` on each
edge's next symbol, threading the visited set, appending each non-null child. -/
def buildChildren (step : Nat → List Nat → Option CallNode × List Nat) (dir : Direction) :
    List CallRecord → List CallNode → List Nat → List CallNode × List Nat
  | [], acc, visited => (acc, visited)
  | c :: rest, acc, visited =>
      match step (nodeNext dir c) visited with
      | (some child, v) => buildChildren step dir rest (acc ++ [child]) v
      | (none, v) => buildChildren step dir rest acc v

/-- The recursive `buildNode` closure of `buildCallChain`, with an explicit
fuel parameter.  Along every call the invariant `fuel + depth = maxDepth + 1`
holds, so the fuel-exhausted branch coincides with the `depth > maxDepth`
guard of the source. -/
def buildNodeF (st : Store) (dir : Direction) (maxDepth : Nat) :
    Nat → Nat → Nat → List Nat → Option CallNode × List Nat
  | 0, _, _, visited => (none, visited)
  | fuel + 1, symbolId, depth, visited =>
      if maxDepth < depth || visited.contains symbolId then (none, visited)
      else
        let visited1 := symbolId :: visited
        match st.getSymbolById symbolId, st.getSymbolLocation symbolId with
        | some sym, some loc =>
            let res := buildChildren
              (fun id v => buildNodeF st dir maxDepth fuel id (depth + 1) v)
              dir (dirCalls st dir symbolId) [] visited1
            (some (.mk symbolId sym.name sym.qualifiedName loc depth res.1), res.2)
        | _, _ => (none, visited1)

/-- `QueryEngine.buildCallChain`. -/
def buildCallChain (st : Store) (opts : CallChainOptions) : Option CallNode :=
  match st.getSymbolById opts.fromId with
  | none => none
  | some _ =>
      match st.getSymbolLocation opts.fromId with
      | none => none
      | some _ =>
          let dir := opts.direction.getD .forward
          let maxDepth := if opts.depth == 0 then 5 else opts.depth
          (buildNodeF st dir maxDepth (maxDepth + 1) opts.fromId 0 []).1

mutual
/-- All symbol ids occurring in a call-chain tree, preorder. -/
def CallNode.ids : CallNode → List Nat
  | .mk i _ _ _ _ kids => i :: idsList kids
/-- All symbol ids occurring in a forest of call-chain trees. -/
def idsList : List CallNode → List Nat
  | [] => []
  | c :: cs => c.ids ++ idsList cs
end

mutual
/-- The number of nodes on the longest root-to-leaf path of the tree. -/
def CallNode.height : CallNode → Nat
  | .mk _ _ _ _ _ kids => 1 + heightList kids
/-- The greatest height among a forest of call-chain trees. -/
def heightList : List CallNode → Nat
  | [] => 0
  | c :: cs => max c.height (heightList cs)
end

mutual
/-- Does every node of the tree carry a `depth` field at most `D`? -/
def CallNode.depthLe (D : Nat) : CallNode → Bool
  | .mk _ _ _ _ d kids => decide (d ≤ D) && depthLeList D kids
/-- Does every node of the forest carry a `depth` field at most `D`? -/
def depthLeList (D : Nat) : List CallNode → Bool
  | [] => true
  | c :: cs => c.depthLe D && depthLeList D cs
end

/-- The `depth` field of the root node. -/
def CallNode.depth : CallNode → Nat
  | .mk _ _ _ _ d _ => d

/-- A result row of `semanticSearch`. -/
structure SearchResult where
  symbol : SymbolRecord
  similarity : ℚ
  location : Location
deriving Repr, DecidableEq

/-- The dot-product loop of `semanticSearch`
(`for i: dotProduct += q[i] * e[i]`, applied to equal-length vectors). -/
def dotList : List ℚ → List ℚ → ℚ
  | a :: as, b :: bs => a * b + dotList as bs
  | _, _ => 0

/-- The per-candidate body of the `semanticSearch` loop: skip on dimension
mismatch, map the dot product `s` to `(s+1)/2`, skip below `minSimilarity`,
and attach the symbol and location (skipping when either lookup misses). -/
def searchCandidate (st : Store) (q : List ℚ) (minSimilarity : ℚ)
    (c : EmbeddingCandidate) : Option SearchResult :=
  if c.embedding.length == q.length then
    let similarity := (dotList q c.embedding + 1) / 2
    if minSimilarity ≤ similarity then
      match st.getSymbolById c.symbolId, st.getSymbolLocation c.symbolId with
      | some sym, some loc => some ⟨sym, similarity, loc⟩
      | _, _ => none
    else none
  else none

/-- `QueryEngine.semanticSearch`, after the query embedding has been
generated: load candidates for the model (optionally filtered), run the
per-candidate loop, sort survivors by descending similarity (JavaScript's
stable sort), and take the first `topK`. -/
def semanticSearch (st : Store) (q : List ℚ) (model : String) (topK : Nat)
    (language kind : Option String) (minSimilarity : ℚ) : List SearchResult :=
  let candidates := st.getEmbeddingsByModel model language kind
  if candidates.isEmpty then []
  else
    let results := candidates.filterMap (searchCandidate st q minSimilarity)
    (results.mergeSort (fun a b => decide (b.similarity ≤ a.similarity))).take topK

/-- `CodeIndex.semanticSearch` (`src/index.ts`): forwards to the engine with
`topK: options.topK || 10` and `minSimilarity: options.minSimilarity || 0.7`
(JavaScript `||` replaces the falsy value `0` by the default). -/
def codeIndexSemanticSearch (st : Store) (q : List ℚ) (model : String) (topK : Nat)
    (language kind : Option String) (minSimilarity : ℚ) : List SearchResult :=
  semanticSearch st q model (if topK == 0 then 10 else topK) language kind
    (if minSimilarity == 0 then 7/10 else minSimilarity)

/-! ## Indexer (`src/indexer/indexer.ts`) -/

/-- An extracted call site (caller resolved later). -/
structure ExtractedCall where
  calleeName : String
  siteStartLine : Nat
  siteStartCol : Nat
  siteEndLine : Nat
  siteEndCol : Nat
deriving Repr, DecidableEq

/-- An extracted reference. -/
structure ExtractedRef where
  name : String
  refKind : String
  startLine : Nat
  startCol : Nat
  endLine : Nat
  endCol : Nat
deriving Repr, DecidableEq

/-- The result of running a language extractor on one file. -/
structure Extraction where
  symbols : List SymbolData
  calls : List ExtractedCall
  references : List ExtractedRef
deriving Repr, DecidableEq

/-- `Indexer.findContainingSymbol`: the innermost extracted symbol of the
current file whose line span contains `line` — smallest `endLine − startLine`
wins, first seen wins ties. -/
def findContainingSymbol (symbols : List SymbolData) (line : Nat) : Option SymbolData :=
  (symbols.foldl
    (fun best s =>
      if s.startLine ≤ line ∧ line ≤ s.endLine then
        let range := s.endLine - s.startLine
        match best with
        | none => some (s, range)
        | some (_, r) => if range < r then some (s, range) else best
      else best)
    none).map (·.1)

/-- A store operation issued by `indexFile`, with the transaction markers of
`db.transaction`.  Reads are not recorded. -/
inductive StoreOp where
  | delSymbolsByFile (fileId : Nat)
  | delCallsByFile (fileId : Nat)
  | delReferencesByFile (fileId : Nat)
  | upsertFile (f : FileData)
  | txBegin
  | txEnd
  | insSymbol (fileId : Nat) (s : SymbolData)
  | insCall (c : CallRecord)
  | insReference (r : ReferenceRecord)
deriving Repr, DecidableEq

/-- Does the operation mutate the store? -/
def StoreOp.mutates : StoreOp → Bool
  | .txBegin => false
  | .txEnd => false
  | _ => true

/-- Is the operation one of the three insert statements? -/
def StoreOp.isInsert : StoreOp → Bool
  | .insSymbol _ _ => true
  | .insCall _ => true
  | .insReference _ => true
  | _ => false

/-- The symbol-insertion loop of `indexFile`: inserts each extracted symbol
and records `qualifiedName → symbolId` in the map (JavaScript `Map.set`
overwrites, modelled by consing so that the latest binding is found first). -/
def insertSymbolsLoop (st : Store) (fid : Nat) :
    List SymbolData → List (String × Nat) → Store × List (String × Nat) × List StoreOp
  | [], map => (st, map, [])
  | s :: rest, map =>
      let r := st.insertSymbol fid s
      let rec' := insertSymbolsLoop r.2 fid rest ((s.qualifiedName, r.1) :: map)
      (rec'.1, rec'.2.1, .insSymbol fid s :: rec'.2.2)

/-- The call-insertion loop of `indexFile`: callee by store-wide name search
(first match), caller by containment among the current file's extracted
symbols; both ids must be truthy (SQLite rowids start at 1, so `0` is the
falsy case). -/
def insertCallsLoop (fid : Nat) (extractionSymbols : List SymbolData)
    (map : List (String × Nat)) (st : Store) :
    List ExtractedCall → Store × List StoreOp
  | [] => (st, [])
  | call :: rest =>
      match st.findSymbolsByName call.calleeName none with
      | [] => insertCallsLoop fid extractionSymbols map st rest
      | callee0 :: _ =>
          match findContainingSymbol extractionSymbols call.siteStartLine with
          | none => insertCallsLoop fid extractionSymbols map st rest
          | some caller =>
              match (map.find? (fun p => p.1 == caller.qualifiedName)).map (·.2) with
              | none => insertCallsLoop fid extractionSymbols map st rest
              | some callerSymbolId =>
                  if callerSymbolId != 0 && callee0.symbolId != 0 then
                    let c : CallRecord :=
                      ⟨callerSymbolId, callee0.symbolId, fid, call.siteStartLine,
                       call.siteStartCol, call.siteEndLine, call.siteEndCol⟩
                    let r := insertCallsLoop fid extractionSymbols map (st.insertCall c) rest
                    (r.1, .insCall c :: r.2)
                  else insertCallsLoop fid extractionSymbols map st rest

/-- The reference-insertion loop of `indexFile`: target by store-wide name
search, first match; misses are dropped. -/
def insertRefsLoop (fid : Nat) (st : Store) :
    List ExtractedRef → Store × List StoreOp
  | [] => (st, [])
  | ref :: rest =>
      match st.findSymbolsByName ref.name none with
      | [] => insertRefsLoop fid st rest
      | target0 :: _ =>
          let r : ReferenceRecord :=
            ⟨fid, ref.startLine, ref.startCol, ref.endLine, ref.endCol,
             target0.symbolId, ref.refKind⟩
          let rec' := insertRefsLoop fid (st.insertReference r) rest
          (rec'.1, .insReference r :: rec'.2)

/-- The replace path of `Indexer.indexFile` (a file that is new or whose
hash differs): delete the file's prior rows if it exists, upsert the file
row, parse/extract (given here as `extraction`), then run the three insert
loops inside `db.transaction`.  Returns the resulting store and the trace of
store operations in execution order; the deletions and the file upsert run
before `db.transaction`, only the inserts run inside it. -/
def indexFileReplace (st : Store) (relativePath lang contentHash : String)
    (mtime size : Nat) (extraction : Extraction) (existingFile : Option FileRecord) :
    Store × List StoreOp :=
  let del :=
    match existingFile with
    | some f =>
        (((st.deleteSymbolsByFile f.fileId).deleteCallsByFile f.fileId).deleteReferencesByFile
           f.fileId,
         [StoreOp.delSymbolsByFile f.fileId, .delCallsByFile f.fileId,
          .delReferencesByFile f.fileId])
    | none => (st, [])
  let fdata : FileData := ⟨relativePath, lang, contentHash, mtime, size⟩
  let ins := del.1.insertFile fdata
  let syms := insertSymbolsLoop ins.2 ins.1 extraction.symbols []
  let callsR := insertCallsLoop ins.1 extraction.symbols syms.2.1 syms.1 extraction.calls
  let refsR := insertRefsLoop ins.1 callsR.1 extraction.references
  (refsR.1,
   del.2 ++ [.upsertFile fdata, .txBegin] ++ syms.2.2 ++ callsR.2 ++ refsR.2 ++ [.txEnd])

/-- `Indexer.indexFile`, from the point where the file content has been
read: `language` is the extension-map result, `enabled` the configured
language set, `hash` the content-hash function (SHA-256 in the source),
`extraction` the parse-and-extract result for `content`.  A file whose
stored hash equals the content hash is skipped before any write. -/
def indexFile (hash : String → String) (st : Store) (relativePath : String)
    (language : Option String) (enabled : List String) (content : String)
    (mtime size : Nat) (extraction : Extraction) : Store × List StoreOp :=
  match language with
  | none => (st, [])
  | some lang =>
      if !(enabled.contains lang) then (st, [])
      else
        let contentHash := hash content
        match st.getFileByPath relativePath with
        | some f =>
            if f.contentHash == contentHash then (st, [])
            else indexFileReplace st relativePath lang contentHash mtime size extraction (some f)
        | none =>
            indexFileReplace st relativePath lang contentHash mtime size extraction none

/-- The property claimed of the per-file re-index trace: every mutating store
operation lies inside the single transaction, i.e. after the first `txBegin`
and before the first `txEnd`. -/
def opsInOneTx (ops : List StoreOp) : Bool :=
  (ops.takeWhile (fun o => o != .txBegin)).all (fun o => !o.mutates)
    && ((ops.dropWhile (fun o => o != .txEnd)).drop 1).all (fun o => !o.mutates)

/-- Is the list a run of insert operations closed by the final `txEnd`? -/
def innerAllInserts : List StoreOp → Bool
  | [] => false
  | [o] => o == .txEnd
  | o :: rest => o.isInsert && innerAllInserts rest

/-- The shape `indexFile` actually produces for a changed tracked file:
delete symbols, delete calls, delete references, upsert the file row — all
before the transaction — then `txBegin`, inserts only, `txEnd`. -/
def traceShape (fid : Nat) (fdata : FileData) (ops : List StoreOp) : Bool :=
  match ops with
  | .delSymbolsByFile a :: .delCallsByFile b :: .delReferencesByFile c ::
      .upsertFile fd :: .txBegin :: rest =>
      a == fid && b == fid && c == fid && fd == fdata && innerAllInserts rest
  | _ => false

/-! ## Watcher glob matcher (`FileWatcher.matchesIncludePattern`) -/

/-- The characters escaped by `matchesIncludePattern`, in source order; the
backslash is escaped last. -/
def specialChars : List Char :=
  ['.', '+', '^', '$', '\x7b', '\x7d', '(', ')', '|', '[', ']', '\\']

/-- `regexPattern.split(char).join('\\' + char)`: prefix every occurrence of
`c` with a backslash. -/
def escapeChar (c : Char) (s : List Char) : List Char :=
  s.flatMap (fun x => if x == c then ['\\', x] else [x])

/-- The escaping loop over `specialChars`. -/
def escapeSpecials (s : List Char) : List Char :=
  specialChars.foldl (fun acc c => escapeChar c acc) s

/-- `replace(/\*\*/g, '.*')`: left-to-right, non-overlapping. -/
def replaceStarStar : List Char → List Char
  | '*' :: '*' :: rest => '.' :: '*' :: replaceStarStar rest
  | c :: rest => c :: replaceStarStar rest
  | [] => []

/-- `replace(/\*/g, '[^/]*')`. -/
def replaceStar (s : List Char) : List Char :=
  s.flatMap (fun c => if c == '*' then ['[', '^', '/', ']', '*'] else [c])

/-- `replace(/\?/g, '[^/]')`. -/
def replaceQmark (s : List Char) : List Char :=
  s.flatMap (fun c => if c == '?' then ['[', '^', '/', ']'] else [c])

/-- The glob-to-regex conversion of `matchesIncludePattern`: escape the
special characters, then rewrite `**`, `*` and `?` in that order. -/
def globToRegex (pattern : String) : List Char :=
  replaceQmark (replaceStar (replaceStarStar (escapeSpecials pattern.toList)))

/-- An atom of the regular expressions produced by `globToRegex`: `.`
(any character but a line terminator), `[^/]`, or a literal character. -/
inductive RAtom where
  | anyChar
  | nonSlash
  | lit (c : Char)
deriving Repr, DecidableEq

/-- Does the atom match one character?  JavaScript `.` excludes line
terminators; `\c` matches the literal `c` for the escapes produced here. -/
def atomMatch : RAtom → Char → Bool
  | .anyChar, c => c != '\n'
  | .nonSlash, c => c != '/'
  | .lit a, c => a == c

/-- Read the produced regex into a token list (atom, starred?).  The only
constructs `globToRegex` emits are literals, `\`-escapes, `.`, `[^/]` and
`[^/]*`; a `*` can only follow `[^/]`. -/
def regexTokens : List Char → List (RAtom × Bool)
  | [] => []
  | '\\' :: c :: '*' :: rest => (.lit c, true) :: regexTokens rest
  | '\\' :: c :: rest => (.lit c, false) :: regexTokens rest
  | '[' :: '^' :: '/' :: ']' :: '*' :: rest => (.nonSlash, true) :: regexTokens rest
  | '[' :: '^' :: '/' :: ']' :: rest => (.nonSlash, false) :: regexTokens rest
  | '.' :: '*' :: rest => (.anyChar, true) :: regexTokens rest
  | '.' :: rest => (.anyChar, false) :: regexTokens rest
  | c :: '*' :: rest => (.lit c, true) :: regexTokens rest
  | c :: rest => (.lit c, false) :: regexTokens rest

/-- Anchored matching of a token list against a character list, with a fuel
parameter for structural termination: every recursive call strictly
decreases `tokens.length + chars.length`, so fuel `tokens.length +
chars.length + 1` never runs out. -/
def reMatchF : Nat → List (RAtom × Bool) → List Char → Bool
  | 0, _, _ => false
  | _ + 1, [], [] => true
  | _ + 1, [], _ :: _ => false
  | _ + 1, (_, false) :: _, [] => false
  | fuel + 1, (atom, false) :: ts, c :: cs => atomMatch atom c && reMatchF fuel ts cs
  | fuel + 1, (atom, true) :: ts, s =>
      reMatchF fuel ts s ||
        (match s with
         | [] => false
         | c :: cs => atomMatch atom c && reMatchF fuel ((atom, true) :: ts) cs)

/-- Anchored matching of a token list against a character list
(`new RegExp('^' + regexPattern + '$').test(...)`). -/
def reMatch (tokens : List (RAtom × Bool)) (chars : List Char) : Bool :=
  reMatchF (tokens.length + chars.length + 1) tokens chars

/-- `FileWatcher.matchesIncludePattern`, applied to the already-relative
path: the event survives when some include pattern's converted regex matches
it.  (The source's second test for patterns starting with `/` re-runs the
same regex on the same string.) -/
def matchesIncludePattern (relativePath : String) (patterns : List String) : Bool :=
  patterns.any (fun pattern =>
    let regex := regexTokens (globToRegex pattern)
    if reMatch regex relativePath.toList then true
    else if leadMatch pattern.toList ['/'] && reMatch regex relativePath.toList then true
    else false)

/-! ## Go extractor symbol walk (`src/extractor/go-extractor.ts`)

The tree-sitter syntax tree is modelled generically: every node carries its
type tag, source text, position, and children, each child optionally tagged
with its field name and flagged as named.  Only the symbol extraction is
modelled; the call/reference walk of the extractor is not needed by the
claims. -/

mutual
/-- A tree-sitter syntax-tree node: type tag, source text, start/end
position (0-based row and column as tree-sitter reports them), children. -/
inductive GoNode where
  | mk (ty text : String) (startRow startCol endRow endCol : Nat) (kids : GoKids)
/-- The children of a node: field name (if any), named flag, child node. -/
inductive GoKids where
  | nil
  | cons (field : Option String) (named : Bool) (child : GoNode) (rest : GoKids)
end

/-- The children of a node as a list of (field, named, node) triples. -/
def GoKids.toList : GoKids → List (Option String × Bool × GoNode)
  | .nil => []
  | .cons f named c rest => (f, named, c) :: rest.toList

/-- The node's type tag. -/
def GoNode.ty : GoNode → String
  | .mk t _ _ _ _ _ _ => t

/-- The node's source text. -/
def GoNode.text : GoNode → String
  | .mk _ t _ _ _ _ _ => t

/-- `node.startPosition.row`. -/
def GoNode.startRow : GoNode → Nat
  | .mk _ _ r _ _ _ _ => r

/-- `node.startPosition.column`. -/
def GoNode.startCol : GoNode → Nat
  | .mk _ _ _ c _ _ _ => c

/-- `node.endPosition.row`. -/
def GoNode.endRow : GoNode → Nat
  | .mk _ _ _ _ r _ _ => r

/-- `node.endPosition.column`. -/
def GoNode.endCol : GoNode → Nat
  | .mk _ _ _ _ _ c _ => c

/-- The node's children list. -/
def GoNode.kids : GoNode → GoKids
  | .mk _ _ _ _ _ _ k => k

/-- `node.children`. -/
def GoNode.children (n : GoNode) : List GoNode :=
  n.kids.toList.map (fun k => k.2.2)

/-- `node.namedChildren`. -/
def GoNode.namedChildren (n : GoNode) : List GoNode :=
  (n.kids.toList.filter (fun k => k.2.1)).map (fun k => k.2.2)

/-- `node.childForFieldName(f)`. -/
def GoNode.childForFieldName (n : GoNode) (f : String) : Option GoNode :=
  (n.kids.toList.find? (fun k => k.1 == some f)).map (fun k => k.2.2)

/-- The exported check the Go extractor applies to every symbol name:
`name.length > 0 && name[0] === name[0].toUpperCase()` (ASCII uppercasing;
the extractor's inputs here are Go identifiers). -/
def goExported (name : String) : Bool :=
  match name.toList with
  | [] => false
  | c :: _ => c == c.toUpper

/-- JavaScript `source.split(sep)` on a character list: `""` splits to
`[""]`, separators delimit possibly-empty segments. -/
def splitOnChar (sep : Char) : List Char → List (List Char)
  | [] => [[]]
  | c :: rest =>
      let r := splitOnChar sep rest
      if c == sep then [] :: r
      else
        match r with
        | [] => [[c]]
        | h :: t => (c :: h) :: t

/-- JavaScript `source.split('\n')`. -/
def jsSplitLines (s : String) : List String :=
  (splitOnChar '\n' s.toList).map String.mk

/-- JavaScript `String.prototype.trim`: strip leading and trailing
whitespace. -/
def trimChars (l : List Char) : List Char :=
  ((l.dropWhile Char.isWhitespace).reverse.dropWhile Char.isWhitespace).reverse

/-- `GoExtractor.extractSignature`: up to three lines of the node, trimmed,
truncated to 200 characters. -/
def goExtractSignature (node : GoNode) (sourceLines : List String) : String :=
  let startLine := node.startRow
  let endLine := min node.endRow (startLine + 2)
  let lines := (sourceLines.drop startLine).take (endLine + 1 - startLine)
  String.mk ((trimChars (String.join (lines.map (fun l => l ++ "\n"))).toList).take 200)

/-- `GoExtractor.extractReceiverType`: the receiver's type, unwrapping a
pointer type. -/
def goExtractReceiverType (receiverNode : GoNode) : String :=
  match receiverNode.namedChildren.head? with
  | some paramList =>
      if paramList.ty == "parameter_declaration" then
        match paramList.childForFieldName "type" with
        | some typeNode =>
            if typeNode.ty == "pointer_type" then
              match typeNode.namedChildren.head? with
              | some innerType => innerType.text
              | none => typeNode.text
            else typeNode.text
        | none => ""
      else ""
  | none => ""

/-- `GoExtractor.extractStructFields` with `fuel` standing for
`maxNestedStructDepth − currentDepth`: the nested-struct recursion of the
source is guarded by `currentDepth < maxNestedStructDepth`, i.e. positive
fuel. -/
def goExtractStructFields (lang : String) : Nat → String → GoNode → List SymbolData
  | fuel, structName, structNode =>
      match structNode.namedChildren.find? (fun c => c.ty == "field_declaration_list") with
      | none => []
      | some fieldList =>
          fieldList.namedChildren.flatMap (fun field =>
            if field.ty == "field_declaration" then
              match field.childForFieldName "name" with
              | some nameNode =>
                  let name := nameNode.text
                  let qualifiedName := structName ++ "." ++ name
                  let fieldType :=
                    match field.childForFieldName "type" with
                    | some t => t.text
                    | none => ""
                  let sym : SymbolData :=
                    ⟨lang, "field", name, qualifiedName, field.startRow + 1, field.startCol,
                     field.endRow + 1, field.endCol,
                     if fieldType == "" then none else some (name ++ " " ++ fieldType),
                     goExported name⟩
                  let nested :=
                    match field.childForFieldName "type", fuel with
                    | some t, f + 1 =>
                        if t.ty == "struct_type" then
                          goExtractStructFields lang f qualifiedName t
                        else []
                    | _, _ => []
                  sym :: nested
              | none =>
                  match field.childForFieldName "type" with
                  | some typeNode =>
                      let embeddedName := typeNode.text
                      [⟨lang, "field", embeddedName, structName ++ "." ++ embeddedName,
                        field.startRow + 1, field.startCol, field.endRow + 1, field.endCol,
                        none, goExported embeddedName⟩]
                  | none => []
            else [])

/-- `GoExtractor.extractInterfaceMethods`. -/
def goExtractInterfaceMethods (lang interfaceName : String) (sourceLines : List String)
    (interfaceNode : GoNode) : List SymbolData :=
  interfaceNode.namedChildren.flatMap (fun child =>
    if child.ty == "method_elem" then
      match child.childForFieldName "name" with
      | some nameNode =>
          let name := nameNode.text
          [⟨lang, "method", name, interfaceName ++ "." ++ name, child.startRow + 1,
            child.startCol, child.endRow + 1, child.endCol,
            some (goExtractSignature child sourceLines), goExported name⟩]
      | none => []
    else [])

/-- The symbols `GoExtractor.extractSymbols` pushes at one node (before
recursing into named children).  The source tests the node type with
sequential `if` blocks; the type tag selects at most one of them. -/
def goSymbolsOwn (maxNested : Nat) (lang : String) (sourceLines : List String)
    (scope : String) (n : GoNode) : List SymbolData :=
  let functionPart :=
    if n.ty == "function_declaration" then
      match n.childForFieldName "name" with
      | some nameNode =>
          let name := nameNode.text
          [⟨lang, "function", name, (if scope == "" then name else scope ++ "." ++ name),
            n.startRow + 1, n.startCol, n.endRow + 1, n.endCol,
            some (goExtractSignature n sourceLines), goExported name⟩]
      | none => []
    else []
  let methodPart :=
    if n.ty == "method_declaration" then
      match n.childForFieldName "name", n.childForFieldName "receiver" with
      | some nameNode, some receiverNode =>
          let name := nameNode.text
          let receiverType := goExtractReceiverType receiverNode
          let qualifiedName :=
            if receiverType == "" then scope ++ "." ++ name
            else scope ++ "." ++ receiverType ++ "." ++ name
          [⟨lang, "method", name, qualifiedName, n.startRow + 1, n.startCol,
            n.endRow + 1, n.endCol, some (goExtractSignature n sourceLines), goExported name⟩]
      | _, _ => []
    else []
  let typePart :=
    if n.ty == "type_declaration" then
      n.namedChildren.flatMap (fun child =>
        if child.ty == "type_spec" then
          match child.childForFieldName "name", child.childForFieldName "type" with
          | some nameNode, some typeNode =>
              let name := nameNode.text
              let qualifiedName := if scope == "" then name else scope ++ "." ++ name
              let kind :=
                if typeNode.ty == "struct_type" then "struct"
                else if typeNode.ty == "interface_type" then "interface"
                else "type"
              let sym : SymbolData :=
                ⟨lang, kind, name, qualifiedName, child.startRow + 1, child.startCol,
                 child.endRow + 1, child.endCol, some ("type " ++ name), goExported name⟩
              let fields :=
                if typeNode.ty == "struct_type" then
                  goExtractStructFields lang maxNested qualifiedName typeNode
                else []
              let ifaceMethods :=
                if typeNode.ty == "interface_type" then
                  goExtractInterfaceMethods lang qualifiedName sourceLines typeNode
                else []
              sym :: (fields ++ ifaceMethods)
          | _, _ => []
        else [])
    else []
  let varConstPart :=
    if n.ty == "var_declaration" || n.ty == "const_declaration" then
      (n.children.filter (fun c => c.ty == "var_spec" || c.ty == "const_spec")).flatMap
        (fun spec =>
          match spec.childForFieldName "name" with
          | some nameNode =>
              let name := nameNode.text
              [⟨lang, (if n.ty == "const_declaration" then "constant" else "variable"), name,
                (if scope == "" then name else scope ++ "." ++ name), spec.startRow + 1,
                spec.startCol, spec.endRow + 1, spec.endCol, none, goExported name⟩]
          | none => [])
    else []
  functionPart ++ methodPart ++ typePart ++ varConstPart

mutual
/-- `GoExtractor.extractSymbols`: emit this node's symbols, then recurse into
the named children with the same scope. -/
def goExtractSymbols (maxNested : Nat) (lang : String) (sourceLines : List String)
    (scope : String) : GoNode → List SymbolData
  | .mk ty text sr sc er ec kids =>
      goSymbolsOwn maxNested lang sourceLines scope (.mk ty text sr sc er ec kids) ++
        goExtractSymbolsKids maxNested lang sourceLines scope kids
/-- The recursion of `extractSymbols` over `node.namedChildren`. -/
def goExtractSymbolsKids (maxNested : Nat) (lang : String) (sourceLines : List String)
    (scope : String) : GoKids → List SymbolData
  | .nil => []
  | .cons _field named child rest =>
      (if named then goExtractSymbols maxNested lang sourceLines scope child else []) ++
        goExtractSymbolsKids maxNested lang sourceLines scope rest
end

/-- The symbol part of `GoExtractor.extract`: split the source into lines,
read the package name from the `package_clause` (default `main`), and walk
the tree with the package name as outermost scope. -/
def goExtract (maxNested : Nat) (lang : String) (root : GoNode) (source : String) :
    List SymbolData :=
  let sourceLines := jsSplitLines source
  let packageName :=
    match root.children.find? (fun n => n.ty == "package_clause") with
    | some pkg =>
        match pkg.childForFieldName "name" with
        | some nameNode => nameNode.text
        | none => "main"
    | none => "main"
  goExtractSymbols maxNested lang sourceLines packageName root

/-- The visibility rule the specification states for Go: the first character
of the short name is an uppercase letter.  (Stated from the spec's words for
comparison with `goExported`.) -/
def firstCharIsUpperLetter (name : String) : Bool :=
  match name.toList with
  | [] => false
  | c :: _ => c.isUpper

/-! ## Auxiliary definitions for the claims: watcher delete handler,
spec-side formulations, and concrete fixtures -/

/-- `FileWatcher.handleFileDelete`: look up the file row by path and delete
it (the cascade removes symbols, calls, references, embeddings); the
JavaScript guard `file && file.fileId` also rejects a falsy (zero) id. -/
def handleFileDelete (st : Store) (filePath : String) : Store :=
  match st.getFileByPath filePath with
  | some f => if f.fileId != 0 then st.deleteFile f.fileId else st
  | none => st

/-- The behaviour C6 claims for `findSymbol`: with multiple hits, apply the
`inFile` substring filter, then the `kind` filter to the rows remaining
after it, and return the first survivor of both; none when no row survives.
(Stated from the claim's words for comparison with `findSymbol`.) -/
def findSymbolClaimed (st : Store) (name : String) (language inFile kind : Option String) :
    Option SymbolRecord :=
  let rows := st.findSymbolsByName name language
  if rows.length ≤ 1 then rows.head?
  else
    let afterFile :=
      match inFile with
      | none => rows
      | some f =>
          rows.filter (fun s =>
            match st.getSymbolLocation s.symbolId with
            | some loc => strContains loc.path f
            | none => false)
    let afterKind :=
      match kind with
      | none => afterFile
      | some k => afterFile.filter (fun s => s.kind == k)
    afterKind.head?

/-- The behaviour `findSymbol` actually has, in spec style: with multiple
hits, the first `inFile` survivor is returned without consulting `kind`;
otherwise the first `kind` survivor of the full hit list; otherwise the
first hit.  None is returned only when no symbol has the name. -/
def findSymbolAmended (st : Store) (name : String) (language inFile kind : Option String) :
    Option SymbolRecord :=
  let rows := st.findSymbolsByName name language
  if rows.length ≤ 1 then rows.head?
  else
    let fileFirst :=
      inFile.bind (fun f =>
        (rows.filter (fun s =>
          match st.getSymbolLocation s.symbolId with
          | some loc => strContains loc.path f
          | none => false)).head?)
    let kindFirst := kind.bind (fun k => (rows.filter (fun s => s.kind == k)).head?)
    (fileFirst.orElse (fun _ => kindFirst)).orElse (fun _ => rows.head?)

/-- Fixture for C5: a store tracking one file with content hash `"h"`. -/
def stC5 : Store :=
  ⟨[⟨1, "a.ts", "ts", "h", 0, 0⟩], [], [], [], [], 2, 1⟩

/-- Fixture for C6: two symbols named `f`; the one in `b.ts` is a class, the
one in `a.ts` a function. -/
def stC6 : Store :=
  ⟨[⟨1, "a.ts", "ts", "h1", 0, 0⟩, ⟨2, "b.ts", "ts", "h2", 0, 0⟩],
   [⟨1, 1, "ts", "function", "f", "f", 1, 0, 1, 0, none, false⟩,
    ⟨2, 2, "ts", "class", "f", "C.f", 1, 0, 1, 0, none, false⟩],
   [], [], [], 3, 3⟩

/-- Fixture for C1: a tracked file (hash `"old"`) with one stored symbol. -/
def stC1 : Store :=
  ⟨[⟨1, "a.ts", "ts", "old", 0, 0⟩],
   [⟨1, 1, "ts", "function", "g", "g", 1, 0, 2, 0, none, false⟩],
   [], [], [], 2, 2⟩

/-- Fixture for C1: a re-extraction with one symbol. -/
def exC1 : Extraction :=
  ⟨[⟨"ts", "function", "f", "f", 1, 0, 2, 0, none, false⟩], [], []⟩

/-- Fixture for C3: two symbols with a call cycle `a → b → a`. -/
def stC3 : Store :=
  ⟨[⟨1, "m.ts", "ts", "h", 0, 0⟩],
   [⟨1, 1, "ts", "function", "a", "a", 1, 0, 1, 0, none, false⟩,
    ⟨2, 1, "ts", "function", "b", "b", 2, 0, 2, 0, none, false⟩],
   [⟨1, 2, 1, 1, 0, 1, 5⟩, ⟨2, 1, 1, 2, 0, 2, 5⟩],
   [], [], 2, 3⟩

/-- The tree `buildCallChain` produces on `stC3` from symbol 1: the cycle
edge back to 1 is suppressed by the visited set. -/
def nC3 : CallNode :=
  .mk 1 "a" "a" ⟨1, "m.ts", 1, 0, 1, 0⟩ 0
    [.mk 2 "b" "b" ⟨1, "m.ts", 2, 0, 2, 0⟩ 1 []]

/-- Fixture for C4: two symbols with unit embeddings `[1,0]` and `[0,1]` for
model `M`. -/
def stC4 : Store :=
  ⟨[⟨1, "m.ts", "ts", "h", 0, 0⟩],
   [⟨1, 1, "ts", "function", "a", "a", 1, 0, 1, 0, none, false⟩,
    ⟨2, 1, "ts", "function", "b", "b", 2, 0, 2, 0, none, false⟩],
   [], [],
   [⟨1, "M", 2, [1, 0], "c1"⟩, ⟨2, "M", 2, [0, 1], "c2"⟩], 2, 3⟩

/-- Fixture for C2: one file owning one symbol, with a call, a reference and
an embedding anchored in it. -/
def stC2 : Store :=
  ⟨[⟨1, "a.go", "go", "h", 0, 0⟩],
   [⟨1, 1, "go", "function", "F", "p.F", 1, 0, 2, 0, none, true⟩],
   [⟨1, 1, 1, 1, 0, 1, 5⟩],
   [⟨1, 1, 0, 1, 5, 1, "call"⟩],
   [⟨1, "M", 2, [1, 0], "c1"⟩], 2, 2⟩

/-- Fixture for C8: the tree-sitter tree of
`package p\nfunc _x() {}` — a function whose name starts with `_`. -/
def goTreeUnderscore : GoNode :=
  .mk "source_file" "package p\nfunc _x() {}" 0 0 1 12
    (.cons none true
      (.mk "package_clause" "package p" 0 0 0 9
        (.cons (some "name") true (.mk "package_identifier" "p" 0 8 0 9 .nil) .nil))
      (.cons none true
        (.mk "function_declaration" "func _x() {}" 1 0 1 12
          (.cons (some "name") true (.mk "identifier" "_x" 1 5 1 7 .nil) .nil))
        .nil))

/-! ## Theorems -/

/-- C2: deleting a tracked file's row cascades to every record owning or
anchored in the file — afterwards no symbol row with that file id, no call
row sited in the file, no reference row sourced in the file, no embedding of
any of the file's symbols, and no file row with that id remain. -/
theorem deleteFile_cascades (st : Store) (fid : Nat) :
    ((st.deleteFile fid).symbols.all (fun s => s.fileId != fid)) = true ∧
    ((st.deleteFile fid).calls.all (fun c => c.siteFileId != fid)) = true ∧
    ((st.deleteFile fid).references.all (fun r => r.fromFileId != fid)) = true ∧
    ((st.deleteFile fid).embeddings.all (fun e =>
        (st.symbols.filter (fun s => s.fileId == fid)).all
          (fun s => s.symbolId != e.symbolId))) = true ∧
    ((st.deleteFile fid).files.all (fun f => f.fileId != fid)) = true := by
  refine ⟨?_, ?_, ?_, ?_, ?_⟩
  · simp only [Store.deleteFile, List.all_eq_true]
    intro s hs
    exact (List.mem_filter.mp hs).2
  · simp only [Store.deleteFile, List.all_eq_true]
    intro c hc
    have h := (List.mem_filter.mp hc).2
    simp only [Bool.and_eq_true] at h
    exact h.1.1
  · simp only [Store.deleteFile, List.all_eq_true]
    intro r hr
    have h := (List.mem_filter.mp hr).2
    simp only [Bool.and_eq_true] at h
    exact h.1
  · simp only [Store.deleteFile, List.all_eq_true]
    intro e he
    have h := (List.mem_filter.mp he).2
    intro s hs
    simp only [bne_iff_ne, ne_eq]
    intro hcontra
    have hmem : e.symbolId ∈
        (st.symbols.filter (fun s => s.fileId == fid)).map (·.symbolId) :=
      List.mem_map.mpr ⟨s, hs, hcontra⟩
    rw [Bool.not_eq_true', ← Bool.not_eq_true] at h
    exact h (List.elem_iff.mpr hmem)
  · simp only [Store.deleteFile, List.all_eq_true]
    intro f hf
    exact (List.mem_filter.mp hf).2

/-- C5: re-indexing a file whose stored content hash equals the hash of its
current content performs no store operation and leaves the store unchanged. -/
theorem indexFile_skip_unchanged (hash : String → String) (st : Store)
    (relativePath lang : String) (enabled : List String) (content : String)
    (mtime size : Nat) (extraction : Extraction) (f : FileRecord)
    (hlang : lang ∈ enabled)
    (hfile : st.getFileByPath relativePath = some f)
    (hhash : f.contentHash = hash content) :
    indexFile hash st relativePath (some lang) enabled content mtime size extraction
      = (st, []) := by
  simp [indexFile, hfile, hhash, hlang]

/-- Witness for C5 at a concrete store whose file row already carries the
content hash. -/
theorem indexFile_skip_unchanged_witness :
    indexFile (fun s => s) stC5 "a.ts" (some "ts") ["ts"] "h" 0 0 ⟨[], [], []⟩
      = (stC5, []) :=
  indexFile_skip_unchanged (fun s => s) stC5 "a.ts" "ts" ["ts"] "h" 0 0 ⟨[], [], []⟩
    ⟨1, "a.ts", "ts", "h", 0, 0⟩ (by decide) (by decide) rfl

/-- C7 (code evaluation): `getReferences` returns one location per reference
row targeting the symbol, but every returned location's `path` is the blank
string — the file-by-id lookup the claim prescribes is not performed. -/
theorem getReferences_path_blank (st : Store) (symbolId : Nat) :
    ((getReferences st symbolId).all (fun loc => loc.path == "")) = true ∧
    (getReferences st symbolId).length = (st.getReferencesToSymbol symbolId).length := by
  constructor
  · simp [getReferences, List.all_eq_true]
  · simp [getReferences]

/-- C10: passing `0` for a numeric query option selects the documented
default — `CodeIndex.semanticSearch` with `topK = 0` and `minSimilarity = 0`
behaves as with `10` and `0.7`, and `buildCallChain` with `depth = 0` walks
to the default depth `5`. -/
theorem zero_option_selects_default (st : Store) (q : List ℚ) (model : String)
    (language kind : Option String) (fromId : Nat) (dir : Option Direction) :
    codeIndexSemanticSearch st q model 0 language kind 0 =
      semanticSearch st q model 10 language kind (7/10) ∧
    buildCallChain st ⟨fromId, dir, 0⟩ = buildCallChain st ⟨fromId, dir, 5⟩ := by
  constructor
  · simp [codeIndexSemanticSearch]
  · simp [buildCallChain]

/-- C6 counterexample: with hits `f` (function, `a.ts`) and `f` (class,
`b.ts`), querying `inFile = "b"` and `kind = "function"` makes the claimed
filter pipeline return none, but `findSymbol` returns the class in `b.ts` —
the kind filter is not applied once the `inFile` filter has survivors. -/
theorem findSymbol_counterexample :
    findSymbol stC6 "f" none (some "b") (some "function") =
      some ⟨2, 2, "ts", "class", "f", "C.f", 1, 0, 1, 0, none, false⟩ ∧
    findSymbolClaimed stC6 "f" none (some "b") (some "function") = none := by
  constructor <;> rfl

/-- C6 amended: `findSymbol` behaves as `findSymbolAmended` describes — with
multiple hits the first `inFile` survivor is returned without consulting
`kind`, otherwise the first `kind` survivor of the full hit list, otherwise
the first hit; none only when no symbol has the name. -/
theorem findSymbol_eq_amended (st : Store) (name : String)
    (language inFile kind : Option String) :
    findSymbol st name language inFile kind = findSymbolAmended st name language inFile kind := by
  unfold findSymbol findSymbolAmended
  cases hrows : st.findSymbolsByName name language with
  | nil => simp
  | cons a l =>
    cases l with
    | nil => simp
    | cons b m =>
      simp only [List.isEmpty_cons, List.length_cons, Bool.false_eq_true, if_false]
      have hlen : 1 < m.length + 1 + 1 := by omega
      have hlen' : ¬ (m.length + 1 + 1 ≤ 1) := by omega
      simp only [hlen, if_true, hlen', if_false]
      cases inFile with
      | none =>
        cases kind with
        | none => simp
        | some k =>
          cases hk : ((a :: b :: m).filter (fun s => s.kind == k)).head? <;>
            simp [hk, Option.bind, Option.orElse]
      | some f =>
        cases hf : ((a :: b :: m).filter (fun s =>
            match st.getSymbolLocation s.symbolId with
            | some loc => strContains loc.path f
            | none => false)).head? with
        | none =>
          cases kind with
          | none => simp [hf, Option.bind, Option.orElse]
          | some k =>
            cases hk : ((a :: b :: m).filter (fun s => s.kind == k)).head? <;>
              simp [hf, hk, Option.bind, Option.orElse]
        | some r => simp [hf, Option.bind, Option.orElse]

set_option maxRecDepth 8000 in
/-- C8 (code evaluation): on `package p` with `func _x() {}` the extractor
emits the function symbol `p._x` with `exported = true` — the source's check
`name[0] === name[0].toUpperCase()` accepts the underscore — although `_` is
not an uppercase letter, contradicting the stated visibility rule. -/
theorem goExtract_underscore_exported :
    goExtract 3 "go" goTreeUnderscore "package p\nfunc _x() {}" =
      [⟨"go", "function", "_x", "p._x", 2, 0, 2, 12, some "func _x() {}", true⟩] ∧
    firstCharIsUpperLetter "_x" = false ∧
    goExported "_x" = true := by
  refine ⟨by decide, by decide, by decide⟩

/-- C9 (code evaluation): the include matcher rejects `src/a.ts` and
`a/b/c.go` against `**/*.ts` / `**/*.go` — `**` does not match across `/`
and the escaped dot requires a literal backslash — so the standard `**` glob
semantics the claim states does not hold; the produced regex for `**/*.ts`
is `.[^/]*/[^/]*\\.ts`. -/
theorem matchesIncludePattern_misses_nested :
    matchesIncludePattern "src/a.ts" ["**/*.ts"] = false ∧
    matchesIncludePattern "a/b/c.go" ["**/*.go"] = false ∧
    String.mk (globToRegex "**/*.ts") = ".[^/]*/[^/]*\\\\.ts" := by
  refine ⟨by decide, by decide, by decide⟩

/-- The symbol-insertion loop only emits `insSymbol` operations. -/
theorem insertSymbolsLoop_ops_insert (syms : List SymbolData) :
    ∀ st fid map, ((insertSymbolsLoop st fid syms map).2.2).all (·.isInsert) = true := by
  induction syms with
  | nil => intro st fid map; simp [insertSymbolsLoop]
  | cons s rest ih =>
      intro st fid map
      simp only [insertSymbolsLoop, List.all_cons, Bool.and_eq_true]
      exact ⟨rfl, ih _ _ _⟩

/-- The call-insertion loop only emits `insCall` operations. -/
theorem insertCallsLoop_ops_insert (calls : List ExtractedCall)
    (fid : Nat) (exSyms : List SymbolData) (map : List (String × Nat)) :
    ∀ st, ((insertCallsLoop fid exSyms map st calls).2).all (·.isInsert) = true := by
  induction calls with
  | nil => intro st; simp [insertCallsLoop]
  | cons c rest ih =>
      intro st
      simp only [insertCallsLoop]
      split
      · exact ih st
      · split
        · exact ih st
        · split
          · exact ih st
          · split
            · simp only [List.all_cons, Bool.and_eq_true]
              exact ⟨rfl, ih _⟩
            · exact ih st

/-- The reference-insertion loop only emits `insReference` operations. -/
theorem insertRefsLoop_ops_insert (refs : List ExtractedRef) (fid : Nat) :
    ∀ st, ((insertRefsLoop fid st refs).2).all (·.isInsert) = true := by
  induction refs with
  | nil => intro st; simp [insertRefsLoop]
  | cons r rest ih =>
      intro st
      simp only [insertRefsLoop]
      split
      · exact ih st
      · simp only [List.all_cons, Bool.and_eq_true]
        exact ⟨rfl, ih _⟩

/-- Prepending a run of inserts keeps a transaction body well-formed. -/
theorem innerAllInserts_append (rest : List StoreOp)
    (hrest : innerAllInserts rest = true) :
    ∀ X : List StoreOp, X.all StoreOp.isInsert = true →
      innerAllInserts (X ++ rest) = true := by
  intro X hX
  induction X with
  | nil => simpa
  | cons x xs ih =>
      simp only [List.all_cons, Bool.and_eq_true] at hX
      have h2 := ih hX.2
      cases hxr : xs ++ rest with
      | nil =>
          have hre : rest = [] := by
            rcases List.append_eq_nil.mp hxr with ⟨-, h⟩
            exact h
          rw [hre] at hrest
          simp [innerAllInserts] at hrest
      | cons r rs =>
          rw [List.cons_append, hxr]
          have heq : innerAllInserts (x :: r :: rs) =
              (x.isInsert && innerAllInserts (r :: rs)) := rfl
          rw [heq, ← hxr]
          simp [hX.1, h2]

/-- C1 amended: for a tracked file whose stored hash differs from the new
content hash, the trace of `indexFile` deletes the file's symbols, calls and
references and upserts the file row before the transaction begins, and the
transaction contains only insert operations. -/
theorem indexFile_trace_shape (hash : String → String) (st : Store)
    (relativePath lang : String) (enabled : List String) (content : String)
    (mtime size : Nat) (extraction : Extraction) (f : FileRecord)
    (hlang : lang ∈ enabled)
    (hfile : st.getFileByPath relativePath = some f)
    (hhash : f.contentHash ≠ hash content) :
    traceShape f.fileId ⟨relativePath, lang, hash content, mtime, size⟩
      (indexFile hash st relativePath (some lang) enabled content mtime size extraction).2
      = true := by
  have hcont : (!(enabled.contains lang)) = false := by simp [hlang]
  have hbeq : (f.contentHash == hash content) = false := by simpa using hhash
  simp only [indexFile, hcont, hfile, hbeq, Bool.false_eq_true, if_false, indexFileReplace,
    List.cons_append, List.nil_append, List.append_assoc]
  simp only [traceShape, beq_self_eq_true, Bool.true_and]
  exact innerAllInserts_append _
    (innerAllInserts_append _
      (innerAllInserts_append _ (by rfl) _ (insertRefsLoop_ops_insert _ _ _))
      _ (insertCallsLoop_ops_insert _ _ _ _ _))
    _ (insertSymbolsLoop_ops_insert _ _ _ _)

/-- C1 counterexample: on a concrete changed file the re-index trace has
mutating operations (the deletions and the file upsert) outside the
transaction, so the claimed single-transaction property fails. -/
theorem indexFile_not_one_tx :
    opsInOneTx
      (indexFile (fun s => s) stC1 "a.ts" (some "ts") ["ts"] "new" 0 0 exC1).2 = false := by
  decide

/-- Witness for the amended C1 at the concrete changed file. -/
theorem indexFile_trace_shape_witness :
    traceShape 1 ⟨"a.ts", "ts", "new", 0, 0⟩
      (indexFile (fun s => s) stC1 "a.ts" (some "ts") ["ts"] "new" 0 0 exC1).2 = true :=
  indexFile_trace_shape (fun s => s) stC1 "a.ts" "ts" ["ts"] "new" 0 0 exC1
    ⟨1, "a.ts", "ts", "old", 0, 0⟩ (by decide) (by decide) (by decide)

/-- A bound on every tree of a forest bounds the forest height. -/
theorem heightList_bound (B d : Nat) (kids : List CallNode) (hd : d ≤ B)
    (h : ∀ c ∈ kids, c.height + d ≤ B) : heightList kids + d ≤ B := by
  induction kids with
  | nil => simpa [heightList]
  | cons c cs ih =>
      simp only [heightList]
      have h1 := h c (List.mem_cons_self _ _)
      have h2 := ih (fun x hx => h x (List.mem_cons_of_mem _ hx))
      rcases Nat.le_total c.height (heightList cs) with hle | hle
      · rw [Nat.max_eq_right hle]; exact h2
      · rw [Nat.max_eq_left hle]; exact h1

/-- Invariant of the `for`-loop of `buildNode` (`buildChildren`), for any
step function that grows the visited set and returns nodes whose ids are
fresh and recorded, with depth fields bounded and heights controlled. -/
theorem buildChildren_invariant (dir : Direction) (maxD dep : Nat)
    (step : Nat → List Nat → Option CallNode × List Nat)
    (hmono : ∀ id v x, x ∈ v → x ∈ (step id v).2)
    (hres : ∀ id v n, (step id v).1 = some n →
      n.ids.Nodup ∧
      (∀ x ∈ n.ids, x ∈ (step id v).2 ∧ x ∉ v) ∧
      n.depthLe maxD = true ∧
      n.height + (dep + 1) ≤ maxD + 1) :
    ∀ (calls : List CallRecord) (acc : List CallNode) (visited : List Nat),
      (∀ x ∈ visited, x ∈ (buildChildren step dir calls acc visited).2) ∧
      ∃ kids, (buildChildren step dir calls acc visited).1 = acc ++ kids ∧
        (idsList kids).Nodup ∧
        (∀ x ∈ idsList kids,
          x ∈ (buildChildren step dir calls acc visited).2 ∧ x ∉ visited) ∧
        depthLeList maxD kids = true ∧
        (∀ c ∈ kids, c.height + (dep + 1) ≤ maxD + 1) := by
  intro calls
  induction calls with
  | nil =>
      intro acc visited
      refine ⟨fun x hx => ?_, [], ?_, ?_, ?_, ?_, ?_⟩ <;>
        simp_all [buildChildren, idsList, depthLeList]
  | cons c rest ih =>
      intro acc visited
      rcases hs : step (nodeNext dir c) visited with ⟨r, v⟩
      cases r with
      | none =>
          have hred : buildChildren step dir (c :: rest) acc visited =
              buildChildren step dir rest acc v := by
            simp only [buildChildren, hs]
          have hvis : ∀ x ∈ visited, x ∈ v := by
            intro x hx
            have := hmono (nodeNext dir c) visited x hx
            rwa [hs] at this
          obtain ⟨ihmono, kids, hfst, hnodup, hmem, hdl, hht⟩ := ih acc v
          rw [hred]
          refine ⟨fun x hx => ihmono x (hvis x hx), kids, hfst, hnodup, ?_, hdl, hht⟩
          intro x hx
          obtain ⟨h1, h2⟩ := hmem x hx
          exact ⟨h1, fun hc => h2 (hvis x hc)⟩
      | some child =>
          have hred : buildChildren step dir (c :: rest) acc visited =
              buildChildren step dir rest (acc ++ [child]) v := by
            simp only [buildChildren, hs]
          have hvis : ∀ x ∈ visited, x ∈ v := by
            intro x hx
            have := hmono (nodeNext dir c) visited x hx
            rwa [hs] at this
          have hchild := hres (nodeNext dir c) visited child (by rw [hs])
          rw [hs] at hchild
          obtain ⟨hcnodup, hcmem, hcdl, hcht⟩ := hchild
          obtain ⟨ihmono, kids, hfst, hnodup, hmem, hdl, hht⟩ := ih (acc ++ [child]) v
          rw [hred]
          refine ⟨fun x hx => ihmono x (hvis x hx), child :: kids, ?_, ?_, ?_, ?_, ?_⟩
          · rw [hfst]; simp
          · -- ids of child :: kids are child.ids ++ idsList kids
            have : idsList (child :: kids) = child.ids ++ idsList kids := rfl
            rw [this, List.nodup_append]
            refine ⟨hcnodup, hnodup, ?_⟩
            intro x hxc hxk
            exact (hmem x hxk).2 ((hcmem x hxc).1)
          · have : idsList (child :: kids) = child.ids ++ idsList kids := rfl
            rw [this]
            intro x hx
            rcases List.mem_append.mp hx with hxc | hxk
            · exact ⟨ihmono x ((hcmem x hxc).1), (hcmem x hxc).2⟩
            · exact ⟨(hmem x hxk).1, fun hc => (hmem x hxk).2 (hvis x hc)⟩
          · have : depthLeList maxD (child :: kids) =
                (child.depthLe maxD && depthLeList maxD kids) := rfl
            rw [this, hcdl, hdl]
            rfl
          · intro x hx
            rcases List.mem_cons.mp hx with hxc | hxk
            · rw [hxc]; exact hcht
            · exact hht x hxk


/-- Invariant of `buildNode` by fuel induction: the visited set only grows;
an emitted node has pairwise-distinct symbol ids, all freshly visited, its
`depth` fields bounded by `maxDepth`, its root depth equal to the call
depth, and its height controlled by the remaining depth budget. -/
theorem buildNodeF_invariant (st : Store) (dir : Direction) (maxD : Nat) :
    ∀ (fuel id dep : Nat) (visited : List Nat),
      (∀ x ∈ visited, x ∈ (buildNodeF st dir maxD fuel id dep visited).2) ∧
      (∀ n, (buildNodeF st dir maxD fuel id dep visited).1 = some n →
        n.ids.Nodup ∧
        (∀ x ∈ n.ids,
          x ∈ (buildNodeF st dir maxD fuel id dep visited).2 ∧ x ∉ visited) ∧
        n.depthLe maxD = true ∧
        n.height + dep ≤ maxD + 1 ∧
        n.depth = dep) := by
  intro fuel
  induction fuel with
  | zero =>
      intro id dep visited
      exact ⟨fun x hx => hx, fun n hn => by simp [buildNodeF] at hn⟩
  | succ fuel ih =>
      intro id dep visited
      by_cases hguard : (decide (maxD < dep) || visited.contains id) = true
      · constructor
        · intro x hx
          simp only [buildNodeF, hguard, if_true]
          exact hx
        · intro n hn
          simp only [buildNodeF, hguard, if_true] at hn
          exact absurd hn (by simp)
      · have hguardf : (decide (maxD < dep) || visited.contains id) = false := by
          rwa [Bool.not_eq_true] at hguard
        have hdep : dep ≤ maxD := by
          have := (Bool.or_eq_false_iff.mp hguardf).1
          simpa using this
        have hid : id ∉ visited := by
          have := (Bool.or_eq_false_iff.mp hguardf).2
          simpa [List.elem_iff] using this
        cases hsym : st.getSymbolById id with
        | none =>
            constructor
            · intro x hx
              simp only [buildNodeF, hguardf, Bool.false_eq_true, if_false, hsym]
              exact List.mem_cons_of_mem _ hx
            · intro n hn
              simp only [buildNodeF, hguardf, Bool.false_eq_true, if_false, hsym] at hn
              exact absurd hn (by simp)
        | some sym =>
            cases hloc : st.getSymbolLocation id with
            | none =>
                constructor
                · intro x hx
                  simp only [buildNodeF, hguardf, Bool.false_eq_true, if_false, hsym, hloc]
                  exact List.mem_cons_of_mem _ hx
                · intro n hn
                  simp only [buildNodeF, hguardf, Bool.false_eq_true, if_false, hsym,
                    hloc] at hn
                  exact absurd hn (by simp)
            | some loc =>
                have hbc := buildChildren_invariant dir maxD dep
                  (fun id' v => buildNodeF st dir maxD fuel id' (dep + 1) v)
                  (fun id' v x hx => (ih id' (dep + 1) v).1 x hx)
                  (fun id' v n hn =>
                    let h := (ih id' (dep + 1) v).2 n hn
                    ⟨h.1, h.2.1, h.2.2.1, h.2.2.2.1⟩)
                  (dirCalls st dir id)
                  [] (id :: visited)
                obtain ⟨hbmono, kids, hfst, hnodup, hmem, hdl, hht⟩ := hbc
                rw [List.nil_append] at hfst
                constructor
                · intro x hx
                  simp only [buildNodeF, hguardf, Bool.false_eq_true, if_false, hsym, hloc]
                  exact hbmono x (List.mem_cons_of_mem _ hx)
                · intro n hn
                  simp only [buildNodeF, hguardf, Bool.false_eq_true, if_false, hsym,
                    hloc] at hn
                  rw [Option.some_inj] at hn
                  subst hn
                  rw [hfst]
                  have hids : (CallNode.mk id sym.name sym.qualifiedName loc dep kids).ids
                      = id :: idsList kids := rfl
                  refine ⟨?_, ?_, ?_, ?_, rfl⟩
                  · rw [hids, List.nodup_cons]
                    refine ⟨fun hc => ?_, hnodup⟩
                    exact (hmem id hc).2 (List.mem_cons_self _ _)
                  · rw [hids]
                    intro x hx
                    simp only [buildNodeF, hguardf, Bool.false_eq_true, if_false, hsym, hloc]
                    rcases List.mem_cons.mp hx with hxid | hxk
                    · subst hxid
                      exact ⟨hbmono x (List.mem_cons_self _ _), hid⟩
                    · exact ⟨(hmem x hxk).1,
                        fun hc => (hmem x hxk).2 (List.mem_cons_of_mem _ hc)⟩
                  · have hdle : (CallNode.mk id sym.name sym.qualifiedName loc dep kids).depthLe
                        maxD = (decide (dep ≤ maxD) && depthLeList maxD kids) := rfl
                    rw [hdle, hdl]
                    simp [hdep]
                  · have hhe : (CallNode.mk id sym.name sym.qualifiedName loc dep kids).height
                        = 1 + heightList kids := rfl
                    rw [hhe]
                    have hb := heightList_bound (maxD + 1) (dep + 1) kids
                      (by omega) hht
                    omega

/-- C3: for every starting symbol, direction and positive depth bound,
`buildCallChain` (a total function of the embedding — termination holds even
on cyclic call graphs) returns, when non-null, a tree whose symbol ids are
pairwise distinct (a symbol visited on any branch is never re-emitted as a
child), whose `depth` fields are all at most the bound, and whose height is
at most bound + 1 nodes (at most `depth`-many edges below the root, which
sits at depth 0). -/
theorem buildCallChain_bounded (st : Store) (opts : CallChainOptions)
    (hD : 0 < opts.depth) (n : CallNode)
    (h : buildCallChain st opts = some n) :
    n.ids.Nodup ∧ n.depthLe opts.depth = true ∧
    n.height ≤ opts.depth + 1 ∧ n.depth = 0 := by
  unfold buildCallChain at h
  cases hsym : st.getSymbolById opts.fromId with
  | none => rw [hsym] at h; simp at h
  | some sym =>
      rw [hsym] at h
      cases hloc : st.getSymbolLocation opts.fromId with
      | none => rw [hloc] at h; simp at h
      | some loc =>
          rw [hloc] at h
          simp only at h
          have hbeq : (opts.depth == 0) = false := by
            simp [Nat.pos_iff_ne_zero.mp hD]
          rw [hbeq] at h
          simp only [Bool.false_eq_true, if_false] at h
          have hinv := (buildNodeF_invariant st (opts.direction.getD .forward) opts.depth
            (opts.depth + 1) opts.fromId 0 []).2 n h
          exact ⟨hinv.1, hinv.2.2.1, by omega, hinv.2.2.2.2⟩

/-- Witness for C3 on the concrete cyclic store `a → b → a`: the returned
tree is `a → b` with the back edge suppressed. -/
theorem buildCallChain_bounded_witness :
    nC3.ids.Nodup ∧ nC3.depthLe 5 = true ∧ nC3.height ≤ 5 + 1 ∧ nC3.depth = 0 :=
  buildCallChain_bounded stC3 ⟨1, some .forward, 5⟩ (by decide) nC3 (by rfl)

/-- A dot product of a vector with itself is nonnegative. -/
theorem dotList_self_nonneg (l : List ℚ) : 0 ≤ dotList l l := by
  induction l with
  | nil => simp [dotList]
  | cons a as ih =>
      have : dotList (a :: as) (a :: as) = a * a + dotList as as := rfl
      rw [this]
      have := mul_self_nonneg a
      linarith

/-- The two-block step of the Cauchy–Schwarz induction. -/
theorem cs_step (a b Q E D : ℚ) (hQ : 0 ≤ Q) (hE : 0 ≤ E) (hD : D ^ 2 ≤ Q * E) :
    (a * b + D) ^ 2 ≤ (a * a + Q) * (b * b + E) := by
  rcases eq_or_lt_of_le hE with hE0 | hEpos
  · have hD2 : D ^ 2 ≤ 0 := by
      rw [← hE0] at hD
      simpa using hD
    have hD0 : D = 0 := by
      nlinarith [sq_nonneg D]
    subst hD0
    rw [← hE0]
    nlinarith [mul_self_nonneg b, mul_self_nonneg a, mul_nonneg hQ (mul_self_nonneg b)]
  · nlinarith [sq_nonneg (a * E - b * D),
      mul_nonneg (add_nonneg (mul_self_nonneg b) hE) (sub_nonneg.mpr hD), hEpos]

/-- Cauchy–Schwarz for the embedded dot product. -/
theorem dotList_sq_le (q : List ℚ) : ∀ v : List ℚ,
    (dotList q v) ^ 2 ≤ dotList q q * dotList v v := by
  induction q with
  | nil =>
      intro v
      have h1 : dotList [] v = 0 := by cases v <;> rfl
      have h2 : dotList ([] : List ℚ) [] = 0 := rfl
      rw [h1, h2]
      simp
  | cons a as ih =>
      intro v
      cases v with
      | nil =>
          have h1 : dotList (a :: as) [] = 0 := rfl
          rw [h1]
          simp only [ne_eq, zero_pow, OfNat.ofNat_ne_zero, not_false_eq_true]
          have h2 : dotList ([] : List ℚ) [] = 0 := rfl
          rw [h2, mul_zero]
      | cons b bs =>
          have h1 : dotList (a :: as) (b :: bs) = a * b + dotList as bs := rfl
          have h2 : dotList (a :: as) (a :: as) = a * a + dotList as as := rfl
          have h3 : dotList (b :: bs) (b :: bs) = b * b + dotList bs bs := rfl
          rw [h1, h2, h3]
          exact cs_step a b (dotList as as) (dotList bs bs) (dotList as bs)
            (dotList_self_nonneg as) (dotList_self_nonneg bs) (ih bs)

/-- Every candidate returned by `getEmbeddingsByModel` carries the payload of
some stored embedding row. -/
theorem mem_getEmbeddingsByModel (st : Store) (model : String)
    (language kind : Option String) (c : EmbeddingCandidate)
    (hc : c ∈ st.getEmbeddingsByModel model language kind) :
    ∃ e ∈ st.embeddings, c.embedding = e.embedding := by
  simp only [Store.getEmbeddingsByModel, List.mem_filterMap] at hc
  obtain ⟨e, he, hsome⟩ := hc
  refine ⟨e, he, ?_⟩
  rcases hfind : st.symbols.find? (fun s => s.symbolId == e.symbolId) with _ | s
  · rw [hfind] at hsome; simp at hsome
  · rw [hfind] at hsome
    dsimp only at hsome
    rw [Option.ite_none_right_eq_some, Option.some_inj] at hsome
    rw [← hsome.2]

/-- Inversion of the per-candidate loop body: a produced row records the
mapped similarity of a dimension-matching candidate at or above the
threshold. -/
theorem searchCandidate_inv (st : Store) (q : List ℚ) (minSim : ℚ)
    (c : EmbeddingCandidate) (r : SearchResult)
    (h : searchCandidate st q minSim c = some r) :
    c.embedding.length = q.length ∧ minSim ≤ r.similarity ∧
    r.similarity = (dotList q c.embedding + 1) / 2 := by
  unfold searchCandidate at h
  rw [Option.ite_none_right_eq_some] at h
  obtain ⟨h1, h⟩ := h
  dsimp only at h
  rw [Option.ite_none_right_eq_some] at h
  obtain ⟨h2, h⟩ := h
  rcases hsym : st.getSymbolById c.symbolId with _ | sym <;> rw [hsym] at h
  · simp at h
  · rcases hloc : st.getSymbolLocation c.symbolId with _ | loc <;> rw [hloc] at h
    · simp at h
    · dsimp only at h
      rw [Option.some_inj] at h
      refine ⟨by simpa using h1, ?_, ?_⟩
      · rw [← h]; exact h2
      · rw [← h]

/-- C4: on unit-length stored embeddings and a unit-length query,
`semanticSearch` returns a list that is non-increasing in similarity, whose
similarities lie in [0, 1] and at or above `minSimilarity`, of length at
most `topK`, and every row's similarity is the `(s+1)/2`-mapped dot product
of the query with a model candidate of matching dimension. -/
theorem semanticSearch_spec (st : Store) (q : List ℚ) (model : String) (topK : Nat)
    (language kind : Option String) (minSim : ℚ)
    (hq : dotList q q = 1)
    (hemb : ∀ e ∈ st.embeddings, dotList e.embedding e.embedding = 1) :
    List.Pairwise (fun a b : SearchResult => b.similarity ≤ a.similarity)
      (semanticSearch st q model topK language kind minSim) ∧
    (∀ r ∈ semanticSearch st q model topK language kind minSim,
      0 ≤ r.similarity ∧ r.similarity ≤ 1 ∧ minSim ≤ r.similarity ∧
      ∃ c ∈ st.getEmbeddingsByModel model language kind,
        c.embedding.length = q.length ∧
        r.similarity = (dotList q c.embedding + 1) / 2) ∧
    (semanticSearch st q model topK language kind minSim).length ≤ topK := by
  have hsortmem : ∀ (l : List SearchResult) (r : SearchResult),
      r ∈ (l.mergeSort (fun a b => decide (b.similarity ≤ a.similarity))).take topK →
        r ∈ l := by
    intro l r hr
    exact ((List.mergeSort_perm l _).mem_iff).mp ((List.take_sublist topK _).subset hr)
  have hpair : ∀ l : List SearchResult,
      List.Pairwise (fun a b : SearchResult => b.similarity ≤ a.similarity)
        ((l.mergeSort (fun a b => decide (b.similarity ≤ a.similarity))).take topK) := by
    intro l
    have hs := @List.sorted_mergeSort SearchResult
      (fun a b => decide (b.similarity ≤ a.similarity))
      (fun a b c hab hbc => by
        simp only [decide_eq_true_eq] at hab hbc ⊢
        linarith)
      (fun a b => by
        simp only [Bool.or_eq_true, decide_eq_true_eq]
        exact le_total b.similarity a.similarity)
      l
    exact (List.Pairwise.sublist (List.take_sublist topK _) hs).imp
      (fun h => by simpa using h)
  simp only [semanticSearch]
  by_cases hemp : (st.getEmbeddingsByModel model language kind).isEmpty = true
  · simp [hemp]
  · have hempf : (st.getEmbeddingsByModel model language kind).isEmpty = false := by
      rwa [Bool.not_eq_true] at hemp
    simp only [hempf, Bool.false_eq_true, if_false]
    refine ⟨hpair _, ?_, ?_⟩
    · intro r hr
      obtain ⟨c, hc, hfc⟩ := List.mem_filterMap.mp (hsortmem _ r hr)
      obtain ⟨hlen, hmin, hsim⟩ := searchCandidate_inv st q minSim c r hfc
      obtain ⟨e, he, hce⟩ := mem_getEmbeddingsByModel st model language kind c hc
      have hunit : dotList c.embedding c.embedding = 1 := by
        rw [hce]; exact hemb e he
      have hcs := dotList_sq_le q c.embedding
      rw [hq, hunit, one_mul] at hcs
      have hle1 : dotList q c.embedding ≤ 1 := by nlinarith [hcs]
      have hgem1 : -1 ≤ dotList q c.embedding := by nlinarith [hcs]
      refine ⟨?_, ?_, hmin, c, hc, hlen, hsim⟩
      · rw [hsim]; linarith
      · rw [hsim]; linarith
    · simp only [List.length_take]
      exact min_le_left _ _

/-- Witness for C4 on the concrete store with unit embeddings `[1,0]` and
`[0,1]` and unit query `[1,0]`. -/
theorem semanticSearch_spec_witness :
    List.Pairwise (fun a b : SearchResult => b.similarity ≤ a.similarity)
      (semanticSearch stC4 [1, 0] "M" 3 none none (7/10)) ∧
    (semanticSearch stC4 [1, 0] "M" 3 none none (7/10)).length ≤ 3 :=
  let h := semanticSearch_spec stC4 [1, 0] "M" 3 none none (7/10)
    (by simp [dotList])
    (by
      intro e he
      simp only [stC4, List.mem_cons, List.not_mem_nil, or_false] at he
      rcases he with rfl | rfl <;> simp [dotList])
  ⟨h.1, h.2.2⟩
